import Mathlib

/-!
Shallow embedding of `src/thompson_sampling/thompson_sampling.py`
(class `Thompson`, a multi-armed-bandit Thompson-sampling experiment).

Modelling conventions:
* Python floats are modelled as rationals (`ℚ`).
* The numpy random source is an injected oracle `Rng`: `beta i a b` is the
  value returned by the i-th random draw when it is `np.random.beta(a, b)`,
  and `bern i p` is the success of the i-th draw when it is
  `np.random.binomial(1, p)`.  A counter threads the draw index, so
  "one Beta sample per bandit" is visible in the indices consumed.
* 2-D numpy arrays are lists of rows; `m[i, j]` is `getEntry m i j`.
* A Python attribute that may be unset (`None`, or never assigned) is an
  `Option`; an operation that raises is `Option`-valued (`none` = raised).
* `print`ed validation messages are collected in a returned list of strings.
-/

/-- Injected randomness: draw-indexed Beta and Bernoulli oracles. -/
structure Rng where
  beta : ℕ → ℚ → ℚ → ℚ
  bern : ℕ → ℚ → Bool

/-- `np.max` of a list (caller guarantees nonemptiness; `[]` never reached). -/
def listMax : List ℚ → ℚ
  | [] => 0
  | x :: xs => xs.foldl max x

/-- First index of the maximum of a list: `np.argmax` (ties to lowest index). -/
def idxOfMax : List ℚ → ℕ
  | [] => 0
  | [_] => 0
  | x :: y :: xs =>
    let j := idxOfMax (y :: xs)
    if x < (y :: xs).getD j 0 then j + 1 else 0

/-- Entry `m[i, j]` of a matrix stored as a list of rows. -/
def getEntry (m : List (List ℚ)) (i j : ℕ) : ℚ := (m.getD i []).getD j 0

/-- `m[i, j] = v` (numpy index assignment). -/
def setEntry (m : List (List ℚ)) (i j : ℕ) (v : ℚ) : List (List ℚ) :=
  m.set i ((m.getD i []).set j v)

/-- `m[i, j] += v` (numpy index increment). -/
def addEntry (m : List (List ℚ)) (i j : ℕ) (v : ℚ) : List (List ℚ) :=
  m.set i ((m.getD i []).set j ((m.getD i []).getD j 0 + v))

/-- `np.zeros((n, t))`. -/
def zeros (n t : ℕ) : List (List ℚ) := List.replicate n (List.replicate t 0)

/-- Running sum of a row with accumulator `acc`: models `np.cumsum` on a row. -/
def cumsumFrom (acc : ℚ) : List ℚ → List ℚ
  | [] => []
  | x :: xs => (acc + x) :: cumsumFrom (acc + x) xs

/-- Column `t` of `m.sum(axis=0)`. -/
def colSum (m : List (List ℚ)) (t : ℕ) : ℚ := (m.map (fun row => row.getD t 0)).sum

/-- Python `zip` over four equal-role sequences (truncates to the shortest). -/
def zip4 {α β γ δ : Type} : List α → List β → List γ → List δ → List (α × β × γ × δ)
  | a :: as, b :: bs, c :: cs, d :: ds => (a, b, c, d) :: zip4 as bs cs ds
  | _, _, _, _ => []

/-- The sequential Beta draws of `Thompson.sampling`: for each quadruple
`(alpha_init, alpha, beta_init, beta)` one draw
`np.random.beta(1 + alpha_init + alpha, 1 + beta_init + beta)`,
consuming one RNG index per bandit. -/
def betaDraws (rng : Rng) (c : ℕ) : List (ℚ × ℚ × ℚ × ℚ) → List ℚ
  | [] => []
  | q :: rest => rng.beta c (1 + q.1 + q.2.1) (1 + q.2.2.1 + q.2.2.2) :: betaDraws rng (c + 1) rest

/-- State of a `Thompson` object.  Configuration fields first, then the
mutable run-state attributes (`none` = attribute is `None`/unset). -/
structure Thompson where
  n_bandits : ℕ
  success_probs : List ℚ
  max_prob : ℚ
  steps : ℚ
  alpha_damping : ℚ
  beta_damping : ℚ
  alpha_init : List ℚ
  beta_init : List ℚ
  optimistic : Bool
  optimistic_threshold : Option ℚ
  rewards : Option (List (List ℚ))
  penalties : Option (List (List ℚ))
  choices : Option (List (List ℚ))
  cumsum_rewards : Option (List (List ℚ))
  cumsum_penalties : Option (List (List ℚ))
  total_rewards : Option (List ℚ)
  regret : Option (List ℚ)
deriving DecidableEq

namespace Thompson

def msgProbsRange : String := "Elements of array of success probabilities must belong to [0, 1] interval."
def msgSteps : String := "Number of steps must be positive integer"
def msgAlphaDamping : String := "alpha_damping must belong to [0, 1] interval."
def msgBetaDamping : String := "beta_damping must belong to [0, 1] interval."
def msgAlphaInitLen : String := "Arrays alpha_init and success_probs must have equal length"
def msgAlphaInitNonneg : String := "Elements of array alpha_init must be >= 0."
def msgBetaInitLen : String := "Arrays beta_init and success_probs must have equal length"
def msgBetaInitNonneg : String := "Elements of array beta_init must be >= 0."
def msgThreshold : String := "optimistic_threshold must belong to [0, 1[ interval."

/-- `Thompson.__init__`.  Returns the constructed object together with the
list of validation messages that were merely printed (the code then
continues with the invalid values).  Returns `none` when construction
raises: `success_probs = []` makes `np.array([]).max()` raise `ValueError`.
Elementwise comparisons on the init arrays follow ndarray semantics.
`1e-6` is the rational `1/1000000`. -/
def init (success_probs : List ℚ) (steps : Option ℚ)
    (alpha_damping beta_damping : Option ℚ)
    (alpha_init beta_init : Option (List ℚ))
    (optimistic : Option Bool) (optimistic_threshold : Option ℚ) :
    Option (Thompson × List String) :=
  match success_probs with
  | [] => none
  | p :: ps =>
    let sp := p :: ps
    let n := sp.length
    let w1 : List String := if ∀ x ∈ sp, 0 ≤ x ∧ x ≤ 1 then [] else [msgProbsRange]
    let stepsVal : ℚ := steps.getD 1000
    let w2 : List String :=
      match steps with
      | none => []
      | some st => if st.den = 1 ∧ 0 < st then [] else [msgSteps]
    let adVal : ℚ := alpha_damping.getD 1
    let w3 : List String :=
      match alpha_damping with
      | none => []
      | some ad => if 0 ≤ ad ∧ ad ≤ 1 then [] else [msgAlphaDamping]
    let bdVal : ℚ := beta_damping.getD 1
    let w4 : List String :=
      match beta_damping with
      | none => []
      | some bd => if 0 ≤ bd ∧ bd ≤ 1 then [] else [msgBetaDamping]
    let aiVal : List ℚ := alpha_init.getD (List.replicate n 1)
    let w5 : List String :=
      match alpha_init with
      | none => []
      | some ai =>
        (if ai.length = n then [] else [msgAlphaInitLen]) ++
        (if ∀ x ∈ ai, 0 ≤ x then [] else [msgAlphaInitNonneg])
    let biVal : List ℚ := beta_init.getD (List.replicate n 1)
    let w6 : List String :=
      match beta_init with
      | none => []
      | some bi =>
        (if bi.length = n then [] else [msgBetaInitLen]) ++
        (if ∀ x ∈ bi, 0 ≤ x then [] else [msgBetaInitNonneg])
    let optVal : Bool := optimistic.getD false
    let thrVal : Option ℚ :=
      match optimistic with
      | none => none
      | some _ =>
        match optimistic_threshold with
        | none => some (1 / 1000000)
        | some th => some th
    let w7 : List String :=
      match optimistic with
      | none => []
      | some _ =>
        match optimistic_threshold with
        | none => []
        | some th => if 0 ≤ th ∧ th < 1 then [] else [msgThreshold]
    some
      ({ n_bandits := n
         success_probs := sp
         max_prob := listMax sp
         steps := stepsVal
         alpha_damping := adVal
         beta_damping := bdVal
         alpha_init := aiVal
         beta_init := biVal
         optimistic := optVal
         optimistic_threshold := thrVal
         rewards := none
         penalties := none
         choices := none
         cumsum_rewards := none
         cumsum_penalties := none
         total_rewards := none
         regret := none },
       w1 ++ w2 ++ w3 ++ w4 ++ w5 ++ w6 ++ w7)

/-- The list of posterior samples computed inside `Thompson.sampling`:
one Beta draw per bandit, clamped from below by `optimistic_threshold`
when `optimistic` is set.  `none` models the attribute errors raised when
`rewards`/`penalties` are `None` or `optimistic_threshold` is unset. -/
def posteriorThetas (rng : Rng) (c : ℕ) (s : Thompson) : Option (List ℚ) := do
  let rw ← s.rewards
  let pn ← s.penalties
  let raw := betaDraws rng c (zip4 s.alpha_init (rw.map List.sum) s.beta_init (pn.map List.sum))
  if s.optimistic then do
    let th ← s.optimistic_threshold
    pure (raw.map (fun x => max x th))
  else
    pure raw

/-- `Thompson.sampling`: pick `np.argmax` of the posterior samples.
Returns the chosen bandit and the advanced draw counter. -/
def sampling (rng : Rng) (c : ℕ) (s : Thompson) : Option (ℕ × ℕ) :=
  (posteriorThetas rng c s).map (fun ts => (idxOfMax ts, c + ts.length))

/-- `Thompson.draw_bandit`: one Bernoulli draw with parameter
`success_probs[k]`, and the deterministic regret `max_prob - success_probs[k]`.
Returns `((reward, regret), advanced counter)`. -/
def draw_bandit (rng : Rng) (c : ℕ) (s : Thompson) (k : ℕ) : (ℕ × ℚ) × ℕ :=
  (((if rng.bern c (s.success_probs.getD k 0) then 1 else 0),
    s.max_prob - s.success_probs.getD k 0), c + 1)

/-- One iteration `t` of the loop in `Thompson.run_experiment`. -/
def runStep (rng : Rng) (p : Thompson × ℕ) (t : ℕ) : Option (Thompson × ℕ) := do
  let s := p.1
  let (bandit, c1) ← sampling rng p.2 s
  let ch ← s.choices
  let s1 : Thompson := { s with choices := some (setEntry ch bandit t 1) }
  let ((reward, regret), c2) := draw_bandit rng c1 s1 bandit
  let s2 ← if reward = 1 then do
      let rw ← s1.rewards
      pure { s1 with rewards := some (addEntry rw bandit t (1 * s1.alpha_damping)) }
    else do
      let pn ← s1.penalties
      pure { s1 with penalties := some (addEntry pn bandit t (1 * s1.beta_damping)) }
  let rg ← s2.regret
  let s3 : Thompson := { s2 with regret := some (rg.set t regret) }
  pure (s3, c2)

/-- `range(self.steps)`: the number of iterations when `steps` is a
non-negative integer; `none` models the `TypeError`/`ValueError` raised on a
non-integral `steps` (by `range`) or a negative one (by `np.zeros`). -/
def ratSteps (q : ℚ) : Option ℕ :=
  if q.den = 1 ∧ 0 ≤ q.num then some q.num.toNat else none

/-- `Thompson.run_experiment`: reset the run-state arrays to zeros, run the
loop, then derive the cumulative statistics. -/
def run_experiment (rng : Rng) (c : ℕ) (s : Thompson) : Option (Thompson × ℕ) := do
  let T ← ratSteps s.steps
  let s0 : Thompson :=
    { s with
      rewards := some (zeros s.n_bandits T)
      penalties := some (zeros s.n_bandits T)
      choices := some (zeros s.n_bandits T)
      total_rewards := some (List.replicate T 0)
      regret := some (List.replicate T 0) }
  let (s1, c1) ← (List.range T).foldlM (runStep rng) (s0, c)
  let rw ← s1.rewards
  let pn ← s1.penalties
  let cr := rw.map (cumsumFrom 0)
  let cp := pn.map (cumsumFrom 0)
  pure
    ({ s1 with
       cumsum_rewards := some cr
       cumsum_penalties := some cp
       total_rewards := some ((List.range T).map (fun t => colSum cr t)) }, c1)

end Thompson

/-! ### General lemmas about the list helpers -/

lemma optBind_some {α β : Type _} (a : α) (f : α → Option β) : (some a >>= f) = f a := rfl

lemma getD_of_lt {α : Type _} (l : List α) (k : ℕ) (d e : α) (h : k < l.length) :
    l.getD k d = l.getD k e := by
  rw [List.getD_eq_getElem?_getD, List.getD_eq_getElem?_getD, List.getElem?_eq_getElem h]
  rfl

lemma getElem?_eq_some_getD {α : Type _} (l : List α) (k : ℕ) (d : α) (h : k < l.length) :
    l[k]? = some (l.getD k d) := by
  rw [List.getD_eq_getElem?_getD, List.getElem?_eq_getElem h]
  rfl

lemma getD_mem {α : Type _} (l : List α) (k : ℕ) (d : α) (h : k < l.length) :
    l.getD k d ∈ l := by
  rw [List.getD_eq_getElem?_getD, List.getElem?_eq_getElem h]
  exact List.getElem_mem h

lemma getD_set_self {α : Type _} (l : List α) (i : ℕ) (v d : α) (h : i < l.length) :
    (l.set i v).getD i d = v := by
  rw [List.getD_eq_getElem?_getD, List.getElem?_set_self (by simpa using h)]
  rfl

lemma getD_set_ne {α : Type _} (l : List α) (i j : ℕ) (v d : α) (h : i ≠ j) :
    (l.set i v).getD j d = l.getD j d := by
  rw [List.getD_eq_getElem?_getD, List.getElem?_set_ne h, ← List.getD_eq_getElem?_getD]

lemma getD_replicate_zero (n k : ℕ) : (List.replicate n (0 : ℚ)).getD k 0 = 0 := by
  rw [List.getD_eq_getElem?_getD]
  rcases lt_or_le k n with h | h
  · rw [List.getElem?_replicate_of_lt h]
    rfl
  · rw [List.getElem?_eq_none (by simpa using h)]
    rfl

lemma getD_map_sum (m : List (List ℚ)) (k : ℕ) (h : k < m.length) :
    (m.map List.sum).getD k 0 = (m.getD k []).sum := by
  rw [List.getD_eq_getElem?_getD, List.getElem?_map, getElem?_eq_some_getD m k [] h]
  rfl

/-- If everything from position `t` on is zero, the sum is the sum of the
first `t` entries. -/
lemma sum_eq_sum_take (l : List ℚ) (t : ℕ) (h : ∀ x ∈ l.drop t, x = 0) :
    l.sum = (l.take t).sum := by
  conv_lhs => rw [← List.take_append_drop t l]
  rw [List.sum_append, List.sum_eq_zero h, add_zero]

/-! ### `idxOfMax` is numpy `argmax`: in range, maximal, first occurrence -/

lemma idxOfMax_lt (l : List ℚ) (h : 0 < l.length) : idxOfMax l < l.length := by
  induction l with
  | nil => simp at h
  | cons x rest ih =>
    cases rest with
    | nil => simp [idxOfMax]
    | cons y xs =>
      rw [idxOfMax]
      split
      · have := ih (by simp)
        simpa using Nat.succ_lt_succ this
      · simp

lemma getD_le_idxOfMax (l : List ℚ) (j : ℕ) (hj : j < l.length) :
    l.getD j 0 ≤ l.getD (idxOfMax l) 0 := by
  induction l generalizing j with
  | nil => simp at hj
  | cons x rest ih =>
    cases rest with
    | nil =>
      cases j with
      | zero => simp [idxOfMax]
      | succ j => simp at hj
    | cons y xs =>
      rw [idxOfMax]
      split
      · rename_i hlt
        cases j with
        | zero => simpa using le_of_lt hlt
        | succ j => simpa using ih j (by simpa using hj)
      · rename_i hge
        push_neg at hge
        cases j with
        | zero => simp
        | succ j =>
          simp only [List.getD_cons_succ, List.getD_cons_zero]
          exact le_trans (ih j (by simpa using hj)) hge

lemma idxOfMax_first (l : List ℚ) (j : ℕ) (hj : j < idxOfMax l) :
    l.getD j 0 < l.getD (idxOfMax l) 0 := by
  induction l generalizing j with
  | nil => simp [idxOfMax] at hj
  | cons x rest ih =>
    cases rest with
    | nil => simp [idxOfMax] at hj
    | cons y xs =>
      rw [idxOfMax] at hj ⊢
      split
      · rename_i hlt
        cases j with
        | zero => simpa using hlt
        | succ j =>
          rw [if_pos hlt] at hj
          simpa using ih j (by simpa using hj)
      · rename_i hge
        rw [if_neg hge] at hj
        simp at hj

/-! ### `listMax` is numpy `max` -/

lemma le_foldl_max (l : List ℚ) (b : ℚ) : b ≤ l.foldl max b := by
  induction l generalizing b with
  | nil => simp
  | cons y ys ih => exact le_trans (le_max_left b y) (ih (max b y))

lemma mem_le_foldl_max (l : List ℚ) (b x : ℚ) (hx : x ∈ l) : x ≤ l.foldl max b := by
  induction l generalizing b with
  | nil => simp at hx
  | cons y ys ih =>
    rcases List.mem_cons.mp hx with rfl | hmem
    · exact le_trans (le_max_right b x) (le_foldl_max ys (max b x))
    · exact ih (max b y) hmem

lemma le_listMax (l : List ℚ) (x : ℚ) (hx : x ∈ l) : x ≤ listMax l := by
  cases l with
  | nil => simp at hx
  | cons y ys =>
    rw [listMax]
    rcases List.mem_cons.mp hx with rfl | hmem
    · exact le_foldl_max ys x
    · exact mem_le_foldl_max ys y x hmem

/-! ### `cumsumFrom` (numpy `cumsum` on a row) -/

lemma length_cumsumFrom (acc : ℚ) (l : List ℚ) : (cumsumFrom acc l).length = l.length := by
  induction l generalizing acc with
  | nil => rfl
  | cons x xs ih => simp [cumsumFrom, ih]

lemma getD_cumsumFrom (acc : ℚ) (l : List ℚ) (i : ℕ) (hi : i < l.length) :
    (cumsumFrom acc l).getD i 0 = acc + (l.take (i + 1)).sum := by
  induction l generalizing acc i with
  | nil => simp at hi
  | cons x xs ih =>
    cases i with
    | zero => simp [cumsumFrom]
    | succ i =>
      rw [cumsumFrom, List.getD_cons_succ, ih (acc + x) i (by simpa using hi)]
      simp [add_assoc]

lemma cumsumFrom_mono (l : List ℚ) (hpos : ∀ x ∈ l, 0 ≤ x) (i j : ℕ)
    (hij : i ≤ j) (hj : j < l.length) :
    (cumsumFrom 0 l).getD i 0 ≤ (cumsumFrom 0 l).getD j 0 := by
  rw [getD_cumsumFrom 0 l i (lt_of_le_of_lt hij hj), getD_cumsumFrom 0 l j hj]
  have hsplit : l.take (j + 1) = l.take (i + 1) ++ ((l.drop (i + 1)).take (j - i)) := by
    rw [← List.take_append_drop (i + 1) (l.take (j + 1))]
    congr 1
    · rw [List.take_take]
      congr 1
      omega
    · rw [List.drop_take]
      congr 1
      omega
  have hnn : 0 ≤ ((l.drop (i + 1)).take (j - i)).sum := by
    apply List.sum_nonneg
    intro x hx
    exact hpos x (List.mem_of_mem_drop (List.mem_of_mem_take hx))
  rw [hsplit, List.sum_append]
  linarith

/-! ### `colSum` (column of `sum(axis=0)`) -/

lemma colSum_nil (t : ℕ) : colSum [] t = 0 := rfl

lemma colSum_cons (row : List ℚ) (rest : List (List ℚ)) (t : ℕ) :
    colSum (row :: rest) t = row.getD t 0 + colSum rest t := by
  simp [colSum]

lemma colSum_eq_sum_range (m : List (List ℚ)) (n t : ℕ) (h : m.length = n) :
    colSum m t = ∑ k in Finset.range n, getEntry m k t := by
  induction m generalizing n with
  | nil =>
    subst h
    simp [colSum]
  | cons row rest ih =>
    subst h
    rw [colSum_cons, List.length_cons, Finset.sum_range_succ']
    rw [ih rest.length rfl]
    simp only [getEntry, List.getD_cons_succ, List.getD_cons_zero]
    ring

/-! ### `zip4` and `betaDraws` -/

lemma zip4_getElem? (A B : List ℚ) (C D : List ℚ) (k : ℕ)
    (hA : k < A.length) (hB : k < B.length) (hC : k < C.length) (hD : k < D.length) :
    (zip4 A B C D)[k]? = some (A.getD k 0, B.getD k 0, C.getD k 0, D.getD k 0) := by
  induction A generalizing B C D k with
  | nil => simp at hA
  | cons a as ih =>
    cases B with
    | nil => simp at hB
    | cons b bs =>
      cases C with
      | nil => simp at hC
      | cons c cs =>
        cases D with
        | nil => simp at hD
        | cons d ds =>
          cases k with
          | zero => simp [zip4]
          | succ k =>
            rw [zip4]
            simp only [List.getElem?_cons_succ, List.getD_cons_succ]
            exact ih bs cs ds k (by simpa using hA) (by simpa using hB)
              (by simpa using hC) (by simpa using hD)

lemma zip4_length_of_eq (A B C D : List ℚ) (n : ℕ)
    (hA : A.length = n) (hB : B.length = n) (hC : C.length = n) (hD : D.length = n) :
    (zip4 A B C D).length = n := by
  induction A generalizing B C D n with
  | nil =>
    cases B with
    | nil =>
      cases C with
      | nil =>
        cases D with
        | nil => simpa using hA
        | cons d ds => simp at hA hD; omega
      | cons c cs => simp at hA hC; omega
    | cons b bs => simp at hA hB; omega
  | cons a as ih =>
    cases B with
    | nil => simp at hA hB; omega
    | cons b bs =>
      cases C with
      | nil => simp at hA hC; omega
      | cons c cs =>
        cases D with
        | nil => simp at hA hD; omega
        | cons d ds =>
          cases n with
          | zero => simp at hA
          | succ n =>
            rw [zip4]
            simp only [List.length_cons]
            rw [ih bs cs ds n (by simpa using hA) (by simpa using hB)
              (by simpa using hC) (by simpa using hD)]

lemma betaDraws_length (rng : Rng) (c : ℕ) (l : List (ℚ × ℚ × ℚ × ℚ)) :
    (betaDraws rng c l).length = l.length := by
  induction l generalizing c with
  | nil => rfl
  | cons q rest ih => simp [betaDraws, ih]

lemma betaDraws_getElem? (rng : Rng) (c : ℕ) (l : List (ℚ × ℚ × ℚ × ℚ)) (k : ℕ) :
    (betaDraws rng c l)[k]? =
      (l[k]?).map (fun q => rng.beta (c + k) (1 + q.1 + q.2.1) (1 + q.2.2.1 + q.2.2.2)) := by
  induction l generalizing c k with
  | nil => simp [betaDraws]
  | cons q rest ih =>
    cases k with
    | zero => simp [betaDraws]
    | succ k =>
      rw [betaDraws]
      simp only [List.getElem?_cons_succ]
      rw [ih (c + 1) k]
      have hc : c + 1 + k = c + (k + 1) := by omega
      rw [hc]

/-! ### Characterization of `Thompson.sampling` -/

namespace Thompson

/-- The posterior samples: one per bandit (at draw indices `c`..`c+n-1`),
with the Beta parameters read off the per-bandit reward/penalty row sums,
clamped from below when `optimistic`. -/
lemma posteriorThetas_char (rng : Rng) (c : ℕ) (s : Thompson)
    (rw pn : List (List ℚ)) (n : ℕ) (th : ℚ)
    (hr : s.rewards = some rw) (hp : s.penalties = some pn)
    (ha : s.alpha_init.length = n) (hb : s.beta_init.length = n)
    (hrl : rw.length = n) (hpl : pn.length = n)
    (hth : s.optimistic = true → s.optimistic_threshold = some th) :
    ∃ ts, posteriorThetas rng c s = some ts ∧ ts.length = n ∧
      ∀ k, k < n → ts.getD k 0 =
        (if s.optimistic then
          max (rng.beta (c + k) (1 + s.alpha_init.getD k 0 + (rw.getD k []).sum)
            (1 + s.beta_init.getD k 0 + (pn.getD k []).sum)) th
         else
          rng.beta (c + k) (1 + s.alpha_init.getD k 0 + (rw.getD k []).sum)
            (1 + s.beta_init.getD k 0 + (pn.getD k []).sum)) := by
  have hRl : (rw.map List.sum).length = n := by simpa using hrl
  have hPl : (pn.map List.sum).length = n := by simpa using hpl
  have hzl : (zip4 s.alpha_init (rw.map List.sum) s.beta_init (pn.map List.sum)).length = n :=
    zip4_length_of_eq _ _ _ _ n ha hRl hb hPl
  have hraw : (betaDraws rng c
      (zip4 s.alpha_init (rw.map List.sum) s.beta_init (pn.map List.sum))).length = n := by
    rw [betaDraws_length, hzl]
  have hrawk : ∀ k, k < n →
      (betaDraws rng c
        (zip4 s.alpha_init (rw.map List.sum) s.beta_init (pn.map List.sum))).getD k 0 =
        rng.beta (c + k) (1 + s.alpha_init.getD k 0 + (rw.getD k []).sum)
          (1 + s.beta_init.getD k 0 + (pn.getD k []).sum) := by
    intro k hk
    rw [List.getD_eq_getElem?_getD, betaDraws_getElem?,
      zip4_getElem? _ _ _ _ k (ha ▸ hk) (hRl ▸ hk) (hb ▸ hk) (hPl ▸ hk)]
    simp only [Option.map_some', Option.getD_some]
    rw [getD_map_sum rw k (hrl ▸ hk), getD_map_sum pn k (hpl ▸ hk)]
  cases hopt : s.optimistic with
  | false =>
    refine ⟨betaDraws rng c (zip4 s.alpha_init (rw.map List.sum) s.beta_init (pn.map List.sum)),
      ?_, hraw, ?_⟩
    · unfold posteriorThetas
      rw [hr, hp]
      simp only [hopt]
      rfl
    · intro k hk
      simp only [hopt, Bool.false_eq_true, if_false]
      exact hrawk k hk
  | true =>
    have hthr := hth hopt
    refine ⟨(betaDraws rng c
        (zip4 s.alpha_init (rw.map List.sum) s.beta_init (pn.map List.sum))).map
        (fun x => max x th), ?_, by simpa using hraw, ?_⟩
    · unfold posteriorThetas
      rw [hr, hp]
      simp only [hopt, hthr]
      rfl
    · intro k hk
      simp only [hopt, if_true]
      rw [List.getD_eq_getElem?_getD, List.getElem?_map,
        getElem?_eq_some_getD _ k 0 (by rw [hraw]; exact hk)]
      simp only [Option.map_some', Option.getD_some]
      rw [hrawk k hk]

/-- Full characterization of `sampling`: it returns the first index of the
maximum of the posterior samples and advances the counter by one draw per
bandit. -/
lemma sampling_char (rng : Rng) (c : ℕ) (s : Thompson)
    (rw pn : List (List ℚ)) (n : ℕ) (th : ℚ)
    (hr : s.rewards = some rw) (hp : s.penalties = some pn)
    (ha : s.alpha_init.length = n) (hb : s.beta_init.length = n)
    (hrl : rw.length = n) (hpl : pn.length = n) (hn : 0 < n)
    (hth : s.optimistic = true → s.optimistic_threshold = some th) :
    ∃ ts, posteriorThetas rng c s = some ts ∧ ts.length = n ∧
      (∀ k, k < n → ts.getD k 0 =
        (if s.optimistic then
          max (rng.beta (c + k) (1 + s.alpha_init.getD k 0 + (rw.getD k []).sum)
            (1 + s.beta_init.getD k 0 + (pn.getD k []).sum)) th
         else
          rng.beta (c + k) (1 + s.alpha_init.getD k 0 + (rw.getD k []).sum)
            (1 + s.beta_init.getD k 0 + (pn.getD k []).sum))) ∧
      sampling rng c s = some (idxOfMax ts, c + n) ∧
      idxOfMax ts < n ∧
      (∀ j, j < n → ts.getD j 0 ≤ ts.getD (idxOfMax ts) 0) ∧
      (∀ j, j < idxOfMax ts → ts.getD j 0 < ts.getD (idxOfMax ts) 0) := by
  obtain ⟨ts, hts, hlen, hent⟩ :=
    posteriorThetas_char rng c s rw pn n th hr hp ha hb hrl hpl hth
  refine ⟨ts, hts, hlen, hent, ?_, ?_, ?_, ?_⟩
  · rw [sampling, hts]
    simp [hlen]
  · rw [← hlen]
    exact idxOfMax_lt ts (by rw [hlen]; exact hn)
  · intro j hj
    exact getD_le_idxOfMax ts j (by rw [hlen]; exact hj)
  · intro j hj
    exact idxOfMax_first ts j hj

end Thompson

/-- C1: `sampling()` draws exactly one Beta sample per bandit `k` — at the
successive RNG indices `c, c+1, …` — with first parameter
`1 + alpha_init[k] +` (sum of `rewards[k]` over the elapsed steps `< t`) and
second parameter `1 + beta_init[k] +` (sum of `penalties[k]` over the
elapsed steps), and returns the index of the bandit whose sampled theta is
maximal, ties broken by the lowest index (strictly greater than all earlier
thetas), advancing the counter by exactly `n` draws. -/
theorem C1_sampling_beta_argmax (rng : Rng) (c t : ℕ) (s : Thompson)
    (rw pn : List (List ℚ)) (n : ℕ) (th : ℚ)
    (hr : s.rewards = some rw) (hp : s.penalties = some pn)
    (ha : s.alpha_init.length = n) (hb : s.beta_init.length = n)
    (hrl : rw.length = n) (hpl : pn.length = n) (hn : 0 < n)
    (hth : s.optimistic = true → s.optimistic_threshold = some th)
    (helr : ∀ row ∈ rw, ∀ x ∈ row.drop t, x = 0)
    (help : ∀ row ∈ pn, ∀ x ∈ row.drop t, x = 0) :
    ∃ ts, Thompson.posteriorThetas rng c s = some ts ∧ ts.length = n ∧
      (∀ k, k < n → ts.getD k 0 =
        (if s.optimistic then
          max (rng.beta (c + k)
            (1 + s.alpha_init.getD k 0 + ((rw.getD k []).take t).sum)
            (1 + s.beta_init.getD k 0 + ((pn.getD k []).take t).sum)) th
         else
          rng.beta (c + k)
            (1 + s.alpha_init.getD k 0 + ((rw.getD k []).take t).sum)
            (1 + s.beta_init.getD k 0 + ((pn.getD k []).take t).sum))) ∧
      Thompson.sampling rng c s = some (idxOfMax ts, c + n) ∧
      idxOfMax ts < n ∧
      (∀ j, j < n → ts.getD j 0 ≤ ts.getD (idxOfMax ts) 0) ∧
      (∀ j, j < idxOfMax ts → ts.getD j 0 < ts.getD (idxOfMax ts) 0) := by
  obtain ⟨ts, hts, hlen, hent, hsamp, hlt, hmax, hfirst⟩ :=
    Thompson.sampling_char rng c s rw pn n th hr hp ha hb hrl hpl hn hth
  refine ⟨ts, hts, hlen, ?_, hsamp, hlt, hmax, hfirst⟩
  intro k hk
  rw [hent k hk,
    sum_eq_sum_take (rw.getD k []) t (helr (rw.getD k []) (getD_mem rw k [] (hrl ▸ hk))),
    sum_eq_sum_take (pn.getD k []) t (help (pn.getD k []) (getD_mem pn k [] (hpl ▸ hk)))]

/-- C7: when `optimistic` is true, every sampled posterior value used by
`sampling()` to select a bandit is at least `optimistic_threshold` (each
theta is clamped by an elementwise max before the argmax is taken). -/
theorem C7_optimistic_floor (rng : Rng) (c : ℕ) (s : Thompson) (th : ℚ) (ts : List ℚ)
    (hopt : s.optimistic = true) (hth : s.optimistic_threshold = some th)
    (hts : Thompson.posteriorThetas rng c s = some ts) :
    (∀ x ∈ ts, th ≤ x) ∧
      Thompson.sampling rng c s = some (idxOfMax ts, c + ts.length) := by
  constructor
  · cases hrw : s.rewards with
    | none => simp [Thompson.posteriorThetas, hrw] at hts
    | some rw =>
      cases hpn : s.penalties with
      | none => simp [Thompson.posteriorThetas, hrw, hpn] at hts
      | some pn =>
        unfold Thompson.posteriorThetas at hts
        rw [hrw, hpn] at hts
        simp only [hopt, hth] at hts
        have hts2 : (betaDraws rng c
            (zip4 s.alpha_init (rw.map List.sum) s.beta_init (pn.map List.sum))).map
            (fun x => max x th) = ts := by
          simpa using hts
        intro x hx
        rw [← hts2] at hx
        obtain ⟨y, _, rfl⟩ := List.mem_map.mp hx
        exact le_max_right y th
  · rw [Thompson.sampling, hts]
    simp

/-- C10: after construction and before any run, the seven run-state
attributes are unset, and `sampling()` fails (raises) because it reads
`rewards`/`penalties`. -/
theorem C10_unrun_state (sp : List ℚ) (st ad bd : Option ℚ)
    (ai bi : Option (List ℚ)) (ob : Option Bool) (ot : Option ℚ)
    (t : Thompson) (w : List String)
    (h : Thompson.init sp st ad bd ai bi ob ot = some (t, w)) :
    t.rewards = none ∧ t.penalties = none ∧ t.choices = none ∧
      t.cumsum_rewards = none ∧ t.cumsum_penalties = none ∧
      t.total_rewards = none ∧ t.regret = none ∧
      ∀ rng c, Thompson.sampling rng c t = none := by
  cases sp with
  | nil => simp [Thompson.init] at h
  | cons p ps =>
    rw [Thompson.init.eq_def] at h
    simp only [Option.some.injEq, Prod.mk.injEq] at h
    obtain ⟨ht, -⟩ := h
    subst ht
    refine ⟨rfl, rfl, rfl, rfl, rfl, rfl, rfl, ?_⟩
    intro rng c
    rfl

/-- C3 (code behavior at a failing input): constructing with
`success_probs = [2]` — outside `[0, 1]` — does not signal an error: it
merely records the printed warning and continues, yielding a fully
constructed object carrying the invalid probability. -/
theorem C3_construction_continues_on_invalid :
    Thompson.init [2] none none none none none none none =
      some ({ n_bandits := 1, success_probs := [2], max_prob := 2, steps := 1000,
              alpha_damping := 1, beta_damping := 1, alpha_init := [1], beta_init := [1],
              optimistic := false, optimistic_threshold := none,
              rewards := none, penalties := none, choices := none, cumsum_rewards := none,
              cumsum_penalties := none, total_rewards := none, regret := none },
            [Thompson.msgProbsRange]) := by
  rfl

/-- C8 (counterexample): with `optimistic` omitted and no threshold given,
the constructed object's `optimistic_threshold` is left unset — not `1e-6`
as the claim states. -/
theorem C8_counterexample :
    (Thompson.init [1/2] none none none none none none none).map
        (fun p => p.1.optimistic_threshold) = some none ∧
      (some (none : Option ℚ)) ≠ some (some (1 / 1000000 : ℚ)) := by
  constructor
  · rfl
  · simp

/-- C8 (amended): `optimistic_threshold` defaults to `1e-6` only when the
`optimistic` flag is explicitly provided; when `optimistic` is omitted the
attribute is never assigned at all. -/
theorem C8_threshold_default (sp : List ℚ) (st ad bd : Option ℚ)
    (ai bi : Option (List ℚ)) (ob : Option Bool)
    (t : Thompson) (w : List String)
    (h : Thompson.init sp st ad bd ai bi ob none = some (t, w)) :
    (ob.isSome = true → t.optimistic_threshold = some (1 / 1000000)) ∧
      (ob = none → t.optimistic_threshold = none) := by
  cases sp with
  | nil => simp [Thompson.init] at h
  | cons p ps =>
    rw [Thompson.init.eq_def] at h
    simp only [Option.some.injEq, Prod.mk.injEq] at h
    obtain ⟨ht, -⟩ := h
    subst ht
    cases ob with
    | none => exact ⟨by simp, fun _ => rfl⟩
    | some b => exact ⟨fun _ => rfl, by simp⟩

/-! ### Matrix entry and shape lemmas -/

lemma getD_of_length_le {α : Type _} (l : List α) (i : ℕ) (d : α) (h : l.length ≤ i) :
    l.getD i d = d := by
  rw [List.getD_eq_getElem?_getD, List.getElem?_eq_none (by simpa using h)]
  rfl

lemma getD_replicate_of_lt {α : Type _} (n i : ℕ) (x d : α) (h : i < n) :
    (List.replicate n x).getD i d = x := by
  rw [List.getD_eq_getElem?_getD, List.getElem?_replicate_of_lt h]
  rfl

lemma getEntry_of_length_le (m : List (List ℚ)) (i j : ℕ) (h : m.length ≤ i) :
    getEntry m i j = 0 := by
  unfold getEntry
  rw [getD_of_length_le m i [] h]
  rfl

lemma getEntry_setEntry_self (m : List (List ℚ)) (i j : ℕ) (v : ℚ)
    (hi : i < m.length) (hj : j < (m.getD i []).length) :
    getEntry (setEntry m i j v) i j = v := by
  unfold getEntry setEntry
  rw [getD_set_self m i _ [] hi, getD_set_self _ j v 0 hj]

lemma getEntry_setEntry_ne (m : List (List ℚ)) (i j : ℕ) (v : ℚ) (i' j' : ℕ)
    (h : i ≠ i' ∨ j ≠ j') :
    getEntry (setEntry m i j v) i' j' = getEntry m i' j' := by
  unfold getEntry setEntry
  by_cases hii : i = i'
  · subst hii
    have hjj : j ≠ j' := by
      rcases h with h | h
      · exact absurd rfl h
      · exact h
    by_cases hlen : i < m.length
    · rw [getD_set_self m i _ [] hlen, getD_set_ne _ j j' v 0 hjj]
    · rw [List.set_eq_of_length_le (le_of_not_lt hlen)]
  · rw [getD_set_ne m i i' _ [] hii]

lemma getEntry_addEntry_self (m : List (List ℚ)) (i j : ℕ) (v : ℚ)
    (hi : i < m.length) (hj : j < (m.getD i []).length) :
    getEntry (addEntry m i j v) i j = getEntry m i j + v := by
  unfold getEntry addEntry
  rw [getD_set_self m i _ [] hi, getD_set_self _ j _ 0 hj]

lemma getEntry_addEntry_ne (m : List (List ℚ)) (i j : ℕ) (v : ℚ) (i' j' : ℕ)
    (h : i ≠ i' ∨ j ≠ j') :
    getEntry (addEntry m i j v) i' j' = getEntry m i' j' := by
  unfold getEntry addEntry
  by_cases hii : i = i'
  · subst hii
    have hjj : j ≠ j' := by
      rcases h with h | h
      · exact absurd rfl h
      · exact h
    by_cases hlen : i < m.length
    · rw [getD_set_self m i _ [] hlen, getD_set_ne _ j j' _ 0 hjj]
    · rw [List.set_eq_of_length_le (le_of_not_lt hlen)]
  · rw [getD_set_ne m i i' _ [] hii]

lemma length_setEntry (m : List (List ℚ)) (i j : ℕ) (v : ℚ) :
    (setEntry m i j v).length = m.length := by
  unfold setEntry
  exact List.length_set m _ _

lemma length_addEntry (m : List (List ℚ)) (i j : ℕ) (v : ℚ) :
    (addEntry m i j v).length = m.length := by
  unfold addEntry
  exact List.length_set m _ _

lemma rowlen_setEntry (m : List (List ℚ)) (i j : ℕ) (v : ℚ) (T : ℕ)
    (hi : i < m.length) (h : ∀ row ∈ m, row.length = T) :
    ∀ row ∈ setEntry m i j v, row.length = T := by
  intro row hrow
  rcases List.mem_or_eq_of_mem_set hrow with hm | rfl
  · exact h row hm
  · rw [List.length_set]
    exact h _ (getD_mem m i [] hi)

lemma rowlen_addEntry (m : List (List ℚ)) (i j : ℕ) (v : ℚ) (T : ℕ)
    (hi : i < m.length) (h : ∀ row ∈ m, row.length = T) :
    ∀ row ∈ addEntry m i j v, row.length = T := by
  intro row hrow
  rcases List.mem_or_eq_of_mem_set hrow with hm | rfl
  · exact h row hm
  · rw [List.length_set]
    exact h _ (getD_mem m i [] hi)

lemma getEntry_zeros (n T i j : ℕ) : getEntry (zeros n T) i j = 0 := by
  unfold getEntry zeros
  rcases lt_or_le i n with h | h
  · rw [getD_replicate_of_lt n i _ [] h]
    exact getD_replicate_zero T j
  · rw [getD_of_length_le _ i [] (by simpa using h)]
    rfl

lemma length_zeros (n T : ℕ) : (zeros n T).length = n := by
  unfold zeros
  exact List.length_replicate n _

lemma rowlen_zeros (n T : ℕ) : ∀ row ∈ zeros n T, row.length = T := by
  intro row hrow
  rw [List.eq_of_mem_replicate hrow]
  exact List.length_replicate T 0

lemma getD_map_range (T t : ℕ) (f : ℕ → ℚ) (h : t < T) :
    ((List.range T).map f).getD t 0 = f t := by
  rw [List.getD_eq_getElem?_getD, List.getElem?_map]
  simp [List.getElem?_range, h]

namespace Thompson

/-- One loop iteration, fully characterized: the choice is recorded,
exactly one of `rewards`/`penalties` is incremented at `[bandit, t]`
according to the Bernoulli draw, the regret is recorded, and nothing else
changes. -/
lemma runStep_char (rng : Rng) (s : Thompson) (c t : ℕ)
    (rw pn ch : List (List ℚ)) (rg : List ℚ) (k c1 : ℕ)
    (hsamp : sampling rng c s = some (k, c1))
    (hr : s.rewards = some rw) (hp : s.penalties = some pn)
    (hc : s.choices = some ch) (hg : s.regret = some rg) :
    runStep rng (s, c) t = some
      (if rng.bern c1 (s.success_probs.getD k 0) then
        { s with choices := some (setEntry ch k t 1),
                 rewards := some (addEntry rw k t (1 * s.alpha_damping)),
                 regret := some (rg.set t (s.max_prob - s.success_probs.getD k 0)) }
       else
        { s with choices := some (setEntry ch k t 1),
                 penalties := some (addEntry pn k t (1 * s.beta_damping)),
                 regret := some (rg.set t (s.max_prob - s.success_probs.getD k 0)) },
       c1 + 1) := by
  cases hbern : rng.bern c1 (s.success_probs.getD k 0) with
  | true =>
    rw [List.getD_eq_getElem?_getD] at hbern
    simp [runStep, draw_bandit, hsamp, hr, hc, hg, hbern]
  | false =>
    rw [List.getD_eq_getElem?_getD] at hbern
    simp [runStep, draw_bandit, hsamp, hp, hc, hg, hbern]

end Thompson

/-- C2: in an iteration `t` of the run loop, after choosing bandit `k` and
drawing the reward: on success `rewards[k][t]` becomes `alpha_damping`
(incremented from 0) and `penalties[k][t]` stays 0; on failure
`penalties[k][t]` becomes `beta_damping` and `rewards[k][t]` stays 0; all
entries for other bandits at step `t` stay 0; `choices[k][t]` is set to 1;
and `regret[t]` is set to `max_prob - success_probs[k]`. -/
theorem C2_step_update (rng : Rng) (s : Thompson) (c t : ℕ)
    (rw pn ch : List (List ℚ)) (rg : List ℚ) (k c1 n T : ℕ)
    (hsamp : Thompson.sampling rng c s = some (k, c1))
    (hr : s.rewards = some rw) (hp : s.penalties = some pn)
    (hc : s.choices = some ch) (hg : s.regret = some rg)
    (hk : k < n) (hrl : rw.length = n) (hpl : pn.length = n) (hcl : ch.length = n)
    (hrow_r : ∀ row ∈ rw, row.length = T) (hrow_p : ∀ row ∈ pn, row.length = T)
    (hrow_c : ∀ row ∈ ch, row.length = T) (hrgl : rg.length = T)
    (ht : t < T)
    (hzr : ∀ j, getEntry rw j t = 0) (hzp : ∀ j, getEntry pn j t = 0) :
    ∃ s', Thompson.runStep rng (s, c) t = some (s', c1 + 1) ∧
      ∃ rw' pn' ch' rg',
        s'.rewards = some rw' ∧ s'.penalties = some pn' ∧
        s'.choices = some ch' ∧ s'.regret = some rg' ∧
        getEntry ch' k t = 1 ∧
        (rng.bern c1 (s.success_probs.getD k 0) = true →
          getEntry rw' k t = s.alpha_damping ∧ getEntry pn' k t = 0) ∧
        (rng.bern c1 (s.success_probs.getD k 0) = false →
          getEntry pn' k t = s.beta_damping ∧ getEntry rw' k t = 0) ∧
        (∀ j, j ≠ k → getEntry rw' j t = 0 ∧ getEntry pn' j t = 0 ∧
          getEntry ch' j t = getEntry ch j t) ∧
        rg'.getD t 0 = s.max_prob - s.success_probs.getD k 0 := by
  have hkr : k < rw.length := hrl ▸ hk
  have hkp : k < pn.length := hpl ▸ hk
  have hkc : k < ch.length := hcl ▸ hk
  have htr : t < (rw.getD k []).length := by rw [hrow_r _ (getD_mem rw k [] hkr)]; exact ht
  have htp : t < (pn.getD k []).length := by rw [hrow_p _ (getD_mem pn k [] hkp)]; exact ht
  have htc : t < (ch.getD k []).length := by rw [hrow_c _ (getD_mem ch k [] hkc)]; exact ht
  have htg : t < rg.length := hrgl ▸ ht
  rw [Thompson.runStep_char rng s c t rw pn ch rg k c1 hsamp hr hp hc hg]
  cases hbern : rng.bern c1 (s.success_probs.getD k 0) with
  | true =>
    rw [if_pos rfl]
    refine ⟨_, rfl, addEntry rw k t (1 * s.alpha_damping), pn, setEntry ch k t 1,
      rg.set t (s.max_prob - s.success_probs.getD k 0), rfl, hp, rfl, rfl, ?_, ?_, ?_, ?_, ?_⟩
    · exact getEntry_setEntry_self ch k t 1 hkc htc
    · intro _
      constructor
      · rw [getEntry_addEntry_self rw k t _ hkr htr, hzr k, one_mul, zero_add]
      · exact hzp k
    · intro hcontra
      exact absurd hcontra (by simp)
    · intro j hj
      refine ⟨?_, hzp j, ?_⟩
      · rw [getEntry_addEntry_ne rw k t _ j t (Or.inl (fun h => hj h.symm))]
        exact hzr j
      · rw [getEntry_setEntry_ne ch k t 1 j t (Or.inl (fun h => hj h.symm))]
    · exact getD_set_self rg t _ 0 htg
  | false =>
    rw [if_neg (by simp)]
    refine ⟨_, rfl, rw, addEntry pn k t (1 * s.beta_damping), setEntry ch k t 1,
      rg.set t (s.max_prob - s.success_probs.getD k 0), hr, rfl, rfl, rfl, ?_, ?_, ?_, ?_, ?_⟩
    · exact getEntry_setEntry_self ch k t 1 hkc htc
    · intro hcontra
      exact absurd hcontra (by simp)
    · intro _
      constructor
      · rw [getEntry_addEntry_self pn k t _ hkp htp, hzp k, one_mul, zero_add]
      · exact hzr k
    · intro j hj
      refine ⟨hzr j, ?_, ?_⟩
      · rw [getEntry_addEntry_ne pn k t _ j t (Or.inl (fun h => hj h.symm))]
        exact hzp j
      · rw [getEntry_setEntry_ne ch k t 1 j t (Or.inl (fun h => hj h.symm))]
    · exact getD_set_self rg t _ 0 htg

/-! ### The run-loop invariant -/

/-- Shape of the run-state arrays: `n` rows of length `T` each, and a
length-`T` regret vector. -/
structure RunShape (n T : ℕ) (rw pn ch : List (List ℚ)) (rg : List ℚ) : Prop where
  hrl : rw.length = n
  hpl : pn.length = n
  hcl : ch.length = n
  hrow_r : ∀ row ∈ rw, row.length = T
  hrow_p : ∀ row ∈ pn, row.length = T
  hrow_c : ∀ row ∈ ch, row.length = T
  hrgl : rg.length = T

/-- What one completed loop iteration `t` leaves in the run-state arrays:
a unique chosen bandit `k`, a one-hot `choices` column, the recorded
regret, and a single damped increment in `rewards` or `penalties`. -/
def StepDone (mx : ℚ) (sp : List ℚ) (ad bd : ℚ) (n : ℕ)
    (rw pn ch : List (List ℚ)) (rg : List ℚ) (t : ℕ) : Prop :=
  ∃ k, k < n ∧ getEntry ch k t = 1 ∧
    (∀ j, j ≠ k → getEntry ch j t = 0) ∧
    rg.getD t 0 = mx - sp.getD k 0 ∧
    (∀ j, j ≠ k → getEntry rw j t = 0 ∧ getEntry pn j t = 0) ∧
    ((getEntry rw k t = ad ∧ getEntry pn k t = 0) ∨
     (getEntry rw k t = 0 ∧ getEntry pn k t = bd))

/-- `StepDone` only looks at column `t`; transport it along updates that
preserve that column. -/
lemma StepDone_congr (mx : ℚ) (sp : List ℚ) (ad bd : ℚ) (n : ℕ)
    (rw pn ch rw' pn' ch' : List (List ℚ)) (rg rg' : List ℚ) (t : ℕ)
    (her : ∀ j, getEntry rw' j t = getEntry rw j t)
    (hep : ∀ j, getEntry pn' j t = getEntry pn j t)
    (hec : ∀ j, getEntry ch' j t = getEntry ch j t)
    (heg : rg'.getD t 0 = rg.getD t 0)
    (h : StepDone mx sp ad bd n rw pn ch rg t) :
    StepDone mx sp ad bd n rw' pn' ch' rg' t := by
  obtain ⟨k, hk, h1, h2, h3, h4, h5⟩ := h
  refine ⟨k, hk, ?_, ?_, ?_, ?_, ?_⟩
  · rw [hec k]; exact h1
  · intro j hj; rw [hec j]; exact h2 j hj
  · rw [heg]; exact h3
  · intro j hj
    rw [her j, hep j]
    exact h4 j hj
  · rw [her k, hep k]
    exact h5

/-- A valid configuration as assumed by the spec's testable properties. -/
structure WFConfig (s : Thompson) : Prop where
  nb : s.n_bandits = s.success_probs.length
  npos : 0 < s.success_probs.length
  hai : s.alpha_init.length = s.success_probs.length
  hbi : s.beta_init.length = s.success_probs.length
  hmx : s.max_prob = listMax s.success_probs
  hthr : s.optimistic = true → s.optimistic_threshold.isSome = true
  had : 0 ≤ s.alpha_damping
  hbd : 0 ≤ s.beta_damping

/-- Invariant of the `run_experiment` loop after `i` completed iterations:
the configuration fields still agree with the base state `sb`, the arrays
have their allocated shape, all columns from `i` on are still zero, and
every column before `i` records one completed iteration. -/
def LoopInv (sb : Thompson) (n T i : ℕ) (p : Thompson × ℕ) : Prop :=
  (p.1.n_bandits = sb.n_bandits ∧ p.1.success_probs = sb.success_probs ∧
   p.1.max_prob = sb.max_prob ∧ p.1.steps = sb.steps ∧
   p.1.alpha_damping = sb.alpha_damping ∧ p.1.beta_damping = sb.beta_damping ∧
   p.1.alpha_init = sb.alpha_init ∧ p.1.beta_init = sb.beta_init ∧
   p.1.optimistic = sb.optimistic ∧ p.1.optimistic_threshold = sb.optimistic_threshold) ∧
  ∃ rw pn ch rg, p.1.rewards = some rw ∧ p.1.penalties = some pn ∧
    p.1.choices = some ch ∧ p.1.regret = some rg ∧
    RunShape n T rw pn ch rg ∧
    (∀ t j, i ≤ t → getEntry rw j t = 0 ∧ getEntry pn j t = 0 ∧ getEntry ch j t = 0) ∧
    (∀ t, t < i → StepDone sb.max_prob sb.success_probs sb.alpha_damping sb.beta_damping
      n rw pn ch rg t)

namespace Thompson

/-- One iteration preserves the loop invariant. -/
lemma LoopInv_step (rng : Rng) (sb : Thompson) (n T i : ℕ) (th : ℚ) (s : Thompson) (c : ℕ)
    (hai : sb.alpha_init.length = n) (hbi : sb.beta_init.length = n)
    (hnpos : 0 < n)
    (hth : sb.optimistic = true → sb.optimistic_threshold = some th)
    (hi : i < T)
    (hinv : LoopInv sb n T i (s, c)) :
    ∃ p, runStep rng (s, c) i = some p ∧ LoopInv sb n T (i + 1) p := by
  obtain ⟨⟨hnb, hsp, hmx, hst, had, hbd, hAi, hBi, hop, hot⟩,
    rw, pn, ch, rg, hr, hp, hc, hg, hshape, hfut, hpast⟩ := hinv
  have ha' : s.alpha_init.length = n := by rw [hAi]; exact hai
  have hb' : s.beta_init.length = n := by rw [hBi]; exact hbi
  have hth' : s.optimistic = true → s.optimistic_threshold = some th := by
    rw [hop, hot]; exact hth
  obtain ⟨ts, hts, hlen, hent, hsamp, hklt, hmaxp, hfirstp⟩ :=
    sampling_char rng c s rw pn n th hr hp ha' hb' hshape.hrl hshape.hpl hnpos hth'
  have hkr : idxOfMax ts < rw.length := hshape.hrl ▸ hklt
  have hkp : idxOfMax ts < pn.length := hshape.hpl ▸ hklt
  have hkc : idxOfMax ts < ch.length := hshape.hcl ▸ hklt
  have htr : i < (rw.getD (idxOfMax ts) []).length := by
    rw [hshape.hrow_r _ (getD_mem rw _ [] hkr)]; exact hi
  have htp : i < (pn.getD (idxOfMax ts) []).length := by
    rw [hshape.hrow_p _ (getD_mem pn _ [] hkp)]; exact hi
  have htc : i < (ch.getD (idxOfMax ts) []).length := by
    rw [hshape.hrow_c _ (getD_mem ch _ [] hkc)]; exact hi
  have htg : i < rg.length := hshape.hrgl ▸ hi
  rw [runStep_char rng s c i rw pn ch rg (idxOfMax ts) (c + n) hsamp hr hp hc hg]
  cases hbern : rng.bern (c + n) (s.success_probs.getD (idxOfMax ts) 0) with
  | true =>
    rw [if_pos rfl]
    refine ⟨_, rfl, ⟨hnb, hsp, hmx, hst, had, hbd, hAi, hBi, hop, hot⟩,
      addEntry rw (idxOfMax ts) i (1 * s.alpha_damping), pn, setEntry ch (idxOfMax ts) i 1,
      rg.set i (s.max_prob - s.success_probs.getD (idxOfMax ts) 0),
      rfl, hp, rfl, rfl, ?_, ?_, ?_⟩
    · exact ⟨by rw [length_addEntry]; exact hshape.hrl, hshape.hpl,
        by rw [length_setEntry]; exact hshape.hcl,
        rowlen_addEntry rw _ i _ T hkr hshape.hrow_r, hshape.hrow_p,
        rowlen_setEntry ch _ i 1 T hkc hshape.hrow_c,
        by rw [List.length_set]; exact hshape.hrgl⟩
    · intro t j hjt
      have hne : i ≠ t := by omega
      have hge : i ≤ t := by omega
      refine ⟨?_, (hfut t j hge).2.1, ?_⟩
      · rw [getEntry_addEntry_ne rw _ i _ j t (Or.inr hne)]
        exact (hfut t j hge).1
      · rw [getEntry_setEntry_ne ch _ i 1 j t (Or.inr hne)]
        exact (hfut t j hge).2.2
    · intro t htlt
      rcases Nat.lt_succ_iff_lt_or_eq.mp htlt with htlt' | heq
      · have hne : i ≠ t := by omega
        refine StepDone_congr _ _ _ _ _ rw pn ch _ _ _ rg _ t ?_ ?_ ?_ ?_ (hpast t htlt')
        · intro j; rw [getEntry_addEntry_ne rw _ i _ j t (Or.inr hne)]
        · intro j; rfl
        · intro j; rw [getEntry_setEntry_ne ch _ i 1 j t (Or.inr hne)]
        · rw [getD_set_ne rg i t _ 0 hne]
      · rw [heq]
        refine ⟨idxOfMax ts, hklt, ?_, ?_, ?_, ?_, Or.inl ⟨?_, ?_⟩⟩
        · rw [getEntry_setEntry_self ch _ i 1 hkc htc]
        · intro j hj
          rw [getEntry_setEntry_ne ch _ i 1 j i (Or.inl (fun h => hj h.symm))]
          exact (hfut i j le_rfl).2.2
        · rw [getD_set_self rg i _ 0 htg, hmx, hsp]
        · intro j hj
          refine ⟨?_, (hfut i j le_rfl).2.1⟩
          rw [getEntry_addEntry_ne rw _ i _ j i (Or.inl (fun h => hj h.symm))]
          exact (hfut i j le_rfl).1
        · rw [getEntry_addEntry_self rw _ i _ hkr htr, (hfut i _ le_rfl).1, one_mul,
            zero_add, had]
        · exact (hfut i _ le_rfl).2.1
  | false =>
    rw [if_neg (by simp)]
    refine ⟨_, rfl, ⟨hnb, hsp, hmx, hst, had, hbd, hAi, hBi, hop, hot⟩,
      rw, addEntry pn (idxOfMax ts) i (1 * s.beta_damping), setEntry ch (idxOfMax ts) i 1,
      rg.set i (s.max_prob - s.success_probs.getD (idxOfMax ts) 0),
      hr, rfl, rfl, rfl, ?_, ?_, ?_⟩
    · exact ⟨hshape.hrl, by rw [length_addEntry]; exact hshape.hpl,
        by rw [length_setEntry]; exact hshape.hcl,
        hshape.hrow_r, rowlen_addEntry pn _ i _ T hkp hshape.hrow_p,
        rowlen_setEntry ch _ i 1 T hkc hshape.hrow_c,
        by rw [List.length_set]; exact hshape.hrgl⟩
    · intro t j hjt
      have hne : i ≠ t := by omega
      have hge : i ≤ t := by omega
      refine ⟨(hfut t j hge).1, ?_, ?_⟩
      · rw [getEntry_addEntry_ne pn _ i _ j t (Or.inr hne)]
        exact (hfut t j hge).2.1
      · rw [getEntry_setEntry_ne ch _ i 1 j t (Or.inr hne)]
        exact (hfut t j hge).2.2
    · intro t htlt
      rcases Nat.lt_succ_iff_lt_or_eq.mp htlt with htlt' | heq
      · have hne : i ≠ t := by omega
        refine StepDone_congr _ _ _ _ _ rw pn ch rw _ _ rg _ t ?_ ?_ ?_ ?_ (hpast t htlt')
        · intro j; rfl
        · intro j; rw [getEntry_addEntry_ne pn _ i _ j t (Or.inr hne)]
        · intro j; rw [getEntry_setEntry_ne ch _ i 1 j t (Or.inr hne)]
        · rw [getD_set_ne rg i t _ 0 hne]
      · rw [heq]
        refine ⟨idxOfMax ts, hklt, ?_, ?_, ?_, ?_, Or.inr ⟨?_, ?_⟩⟩
        · rw [getEntry_setEntry_self ch _ i 1 hkc htc]
        · intro j hj
          rw [getEntry_setEntry_ne ch _ i 1 j i (Or.inl (fun h => hj h.symm))]
          exact (hfut i j le_rfl).2.2
        · rw [getD_set_self rg i _ 0 htg, hmx, hsp]
        · intro j hj
          refine ⟨(hfut i j le_rfl).1, ?_⟩
          rw [getEntry_addEntry_ne pn _ i _ j i (Or.inl (fun h => hj h.symm))]
          exact (hfut i j le_rfl).2.1
        · exact (hfut i _ le_rfl).1
        · rw [getEntry_addEntry_self pn _ i _ hkp htp, (hfut i _ le_rfl).2.1, one_mul,
            zero_add, hbd]

end Thompson

namespace Thompson

/-- The loop invariant propagates through the whole `foldlM` loop. -/
lemma LoopInv_fold (rng : Rng) (sb : Thompson) (n T : ℕ) (th : ℚ)
    (hai : sb.alpha_init.length = n) (hbi : sb.beta_init.length = n)
    (hnpos : 0 < n)
    (hth : sb.optimistic = true → sb.optimistic_threshold = some th) :
    ∀ i, i ≤ T → ∀ s0 c0, LoopInv sb n T 0 (s0, c0) →
      ∃ p, (List.range i).foldlM (runStep rng) (s0, c0) = some p ∧ LoopInv sb n T i p := by
  intro i
  induction i with
  | zero =>
    intro _ s0 c0 h0
    exact ⟨(s0, c0), rfl, h0⟩
  | succ i ih =>
    intro hiT s0 c0 h0
    obtain ⟨p, hfold, hinv⟩ := ih (by omega) s0 c0 h0
    obtain ⟨p', hstep, hinv'⟩ :=
      LoopInv_step rng sb n T i th p.1 p.2 hai hbi hnpos hth (by omega) hinv
    refine ⟨p', ?_, hinv'⟩
    rw [List.range_succ, List.foldlM_append, hfold]
    simp [hstep]

/-- The loop invariant holds at the freshly zeroed state. -/
lemma LoopInv_zero (s : Thompson) (c T : ℕ)
    (hnb : s.n_bandits = s.success_probs.length) :
    LoopInv s s.success_probs.length T 0
      ({ s with
         rewards := some (zeros s.n_bandits T)
         penalties := some (zeros s.n_bandits T)
         choices := some (zeros s.n_bandits T)
         total_rewards := some (List.replicate T 0)
         regret := some (List.replicate T 0) }, c) := by
  refine ⟨⟨rfl, rfl, rfl, rfl, rfl, rfl, rfl, rfl, rfl, rfl⟩,
    zeros s.n_bandits T, zeros s.n_bandits T, zeros s.n_bandits T, List.replicate T 0,
    rfl, rfl, rfl, rfl, ?_, ?_, ?_⟩
  · exact ⟨by rw [length_zeros, hnb], by rw [length_zeros, hnb], by rw [length_zeros, hnb],
      rowlen_zeros _ T, rowlen_zeros _ T, rowlen_zeros _ T, List.length_replicate T 0⟩
  · intro t j _
    exact ⟨getEntry_zeros _ T j t, getEntry_zeros _ T j t, getEntry_zeros _ T j t⟩
  · intro t ht
    exact absurd ht (Nat.not_lt_zero t)

lemma ratSteps_natCast (T : ℕ) : ratSteps ((T : ℕ) : ℚ) = some T := by
  simp [ratSteps]

/-- Complete characterization of a successful `run_experiment` on a valid
configuration: it succeeds, the derived cumulative arrays are the row-wise
running sums and their column totals, and every column of the run-state
arrays records exactly one completed iteration. -/
lemma run_char (rng : Rng) (c : ℕ) (s : Thompson) (T : ℕ)
    (hwf : WFConfig s) (hT : s.steps = (T : ℚ)) :
    ∃ s' c' rw pn ch rg,
      run_experiment rng c s = some (s', c') ∧
      s'.rewards = some rw ∧ s'.penalties = some pn ∧
      s'.choices = some ch ∧ s'.regret = some rg ∧
      s'.cumsum_rewards = some (rw.map (cumsumFrom 0)) ∧
      s'.cumsum_penalties = some (pn.map (cumsumFrom 0)) ∧
      s'.total_rewards = some ((List.range T).map (fun t => colSum (rw.map (cumsumFrom 0)) t)) ∧
      RunShape s.success_probs.length T rw pn ch rg ∧
      (∀ t, t < T → StepDone s.max_prob s.success_probs s.alpha_damping s.beta_damping
        s.success_probs.length rw pn ch rg t) := by
  have hth : s.optimistic = true → s.optimistic_threshold = some (s.optimistic_threshold.getD 0) := by
    intro h
    cases hot : s.optimistic_threshold with
    | none =>
      have hsome := hwf.hthr h
      rw [hot] at hsome
      simp at hsome
    | some x => rfl
  obtain ⟨p, hfold, hinv⟩ :=
    LoopInv_fold rng s s.success_probs.length T (s.optimistic_threshold.getD 0)
      hwf.hai hwf.hbi hwf.npos hth T le_rfl _ c (LoopInv_zero s c T hwf.nb)
  obtain ⟨s1, c1⟩ := p
  obtain ⟨-, rw, pn, ch, rg, hr, hp, hc, hg, hshape, -, hpast⟩ := hinv
  refine ⟨{ s1 with
      cumsum_rewards := some (rw.map (cumsumFrom 0)),
      cumsum_penalties := some (pn.map (cumsumFrom 0)),
      total_rewards := some ((List.range T).map (fun t => colSum (rw.map (cumsumFrom 0)) t)) },
    c1, rw, pn, ch, rg, ?_, hr, hp, hc, hg, rfl, rfl, rfl, hshape, fun t ht => hpast t ht⟩
  unfold run_experiment
  rw [hT] at hfold
  rw [hT, ratSteps_natCast]
  simp only [optBind_some]
  rw [hfold]
  simp only [optBind_some]
  rw [hr]
  simp only [optBind_some]
  rw [hp]
  simp only [optBind_some]
  rfl

end Thompson

lemma getD_map_row (m : List (List ℚ)) (f : List ℚ → List ℚ) (k : ℕ) (h : k < m.length) :
    (m.map f).getD k [] = f (m.getD k []) := by
  rw [List.getD_eq_getElem?_getD, List.getElem?_map, getElem?_eq_some_getD m k [] h]
  rfl

/-- C4: after `run_experiment()` on a valid configuration, every column of
`choices` sums to exactly 1 — exactly one bandit is marked chosen per step. -/
theorem C4_one_hot_choices (rng : Rng) (c : ℕ) (s : Thompson) (T : ℕ)
    (s' : Thompson) (c' : ℕ) (ch : List (List ℚ))
    (hwf : WFConfig s) (hT : s.steps = (T : ℚ))
    (hrun : Thompson.run_experiment rng c s = some (s', c'))
    (hch : s'.choices = some ch) :
    ∀ t, t < T → ∑ k in Finset.range s.success_probs.length, getEntry ch k t = 1 := by
  obtain ⟨s0, c0, rw, pn, ch0, rg, hrun0, hr0, hp0, hc0, hg0, -, -, -, hsh, hpast⟩ :=
    Thompson.run_char rng c s T hwf hT
  rw [hrun] at hrun0
  obtain ⟨heq1, heq2⟩ : s' = s0 ∧ c' = c0 := by simpa using hrun0
  subst heq1
  rw [hch] at hc0
  obtain rfl : ch = ch0 := by simpa using hc0
  intro t ht
  obtain ⟨k0, hk0, h1, h2, h3, h4, h5⟩ := hpast t ht
  rw [Finset.sum_eq_single_of_mem k0 (Finset.mem_range.mpr hk0)]
  · exact h1
  · intro b _ hb
    exact h2 b hb

/-- C5: after `run_experiment()` on a valid configuration, every `regret[t]`
is nonnegative and equals `max_prob - success_probs[k]` for the bandit `k`
chosen at step `t`; it is zero exactly when that bandit attains `max_prob`. -/
theorem C5_regret_nonneg_zero_iff (rng : Rng) (c : ℕ) (s : Thompson) (T : ℕ)
    (s' : Thompson) (c' : ℕ) (ch : List (List ℚ)) (rg : List ℚ)
    (hwf : WFConfig s) (hT : s.steps = (T : ℚ))
    (hrun : Thompson.run_experiment rng c s = some (s', c'))
    (hch : s'.choices = some ch) (hrg : s'.regret = some rg) :
    ∀ t, t < T → 0 ≤ rg.getD t 0 ∧
      ∀ k, getEntry ch k t = 1 →
        rg.getD t 0 = s.max_prob - s.success_probs.getD k 0 ∧
        (rg.getD t 0 = 0 ↔ s.success_probs.getD k 0 = s.max_prob) := by
  obtain ⟨s0, c0, rw, pn, ch0, rg0, hrun0, hr0, hp0, hc0, hg0, -, -, -, hsh, hpast⟩ :=
    Thompson.run_char rng c s T hwf hT
  rw [hrun] at hrun0
  obtain ⟨heq1, heq2⟩ : s' = s0 ∧ c' = c0 := by simpa using hrun0
  subst heq1
  rw [hch] at hc0
  obtain rfl : ch = ch0 := by simpa using hc0
  rw [hrg] at hg0
  obtain rfl : rg = rg0 := by simpa using hg0
  intro t ht
  obtain ⟨k0, hk0, h1, h2, h3, h4, h5⟩ := hpast t ht
  have hknum : k0 < s.success_probs.length := hk0
  have hle : s.success_probs.getD k0 0 ≤ s.max_prob := by
    rw [hwf.hmx]
    exact le_listMax _ _ (getD_mem s.success_probs k0 0 hknum)
  constructor
  · rw [h3]
    linarith
  · intro k hk
    have hkk : k = k0 := by
      by_contra hne
      rw [h2 k hne] at hk
      exact absurd hk (by norm_num)
    subst hkk
    refine ⟨h3, ?_⟩
    rw [h3]
    constructor
    · intro hzero
      linarith
    · intro heqq
      rw [heqq]
      ring

/-- C6: after `run_experiment()` on a valid configuration (dampings are
nonnegative), each bandit's cumulative reward/penalty sequences are
non-decreasing in `t`, and `total_rewards[t]` is the sum over all bandits of
`cumsum_rewards[k][t]`. -/
theorem C6_cumsum_monotone_total (rng : Rng) (c : ℕ) (s : Thompson) (T : ℕ)
    (s' : Thompson) (c' : ℕ) (cr cp : List (List ℚ)) (tr : List ℚ)
    (hwf : WFConfig s) (hT : s.steps = (T : ℚ))
    (hrun : Thompson.run_experiment rng c s = some (s', c'))
    (hcr : s'.cumsum_rewards = some cr) (hcp : s'.cumsum_penalties = some cp)
    (htr : s'.total_rewards = some tr) :
    (∀ k t1 t2, t1 ≤ t2 → t2 < T → getEntry cr k t1 ≤ getEntry cr k t2) ∧
    (∀ k t1 t2, t1 ≤ t2 → t2 < T → getEntry cp k t1 ≤ getEntry cp k t2) ∧
    (∀ t, t < T → tr.getD t 0 = ∑ k in Finset.range s.success_probs.length, getEntry cr k t) := by
  obtain ⟨s0, c0, rw, pn, ch0, rg0, hrun0, hr0, hp0, hc0, hg0, hcr0, hcp0, htr0, hsh, hpast⟩ :=
    Thompson.run_char rng c s T hwf hT
  rw [hrun] at hrun0
  obtain ⟨heq1, heq2⟩ : s' = s0 ∧ c' = c0 := by simpa using hrun0
  subst heq1
  rw [hcr] at hcr0
  obtain rfl : cr = rw.map (cumsumFrom 0) := by simpa using hcr0
  rw [hcp] at hcp0
  obtain rfl : cp = pn.map (cumsumFrom 0) := by simpa using hcp0
  rw [htr] at htr0
  obtain rfl : tr = (List.range T).map (fun t => colSum (rw.map (cumsumFrom 0)) t) := by
    simpa using htr0
  have hnn_r : ∀ k, k < s.success_probs.length → ∀ x ∈ rw.getD k [], 0 ≤ x := by
    intro k hkn x hx
    obtain ⟨i, hi, hix⟩ := List.mem_iff_getElem.mp hx
    have hiT : i < T := by
      rw [hsh.hrow_r _ (getD_mem rw k [] (by rw [hsh.hrl]; exact hkn))] at hi
      exact hi
    have hval : getEntry rw k i = x := by
      unfold getEntry
      rw [List.getD_eq_getElem?_getD, List.getElem?_eq_getElem hi]
      exact hix
    obtain ⟨k0, hk0, h1, h2, h3, h4, h5⟩ := hpast i hiT
    by_cases hkk : k = k0
    · subst hkk
      rcases h5 with ⟨ha, -⟩ | ⟨ha, -⟩ <;> rw [← hval, ha]
      exact hwf.had
    · rw [← hval, (h4 k hkk).1]
  have hnn_p : ∀ k, k < s.success_probs.length → ∀ x ∈ pn.getD k [], 0 ≤ x := by
    intro k hkn x hx
    obtain ⟨i, hi, hix⟩ := List.mem_iff_getElem.mp hx
    have hiT : i < T := by
      rw [hsh.hrow_p _ (getD_mem pn k [] (by rw [hsh.hpl]; exact hkn))] at hi
      exact hi
    have hval : getEntry pn k i = x := by
      unfold getEntry
      rw [List.getD_eq_getElem?_getD, List.getElem?_eq_getElem hi]
      exact hix
    obtain ⟨k0, hk0, h1, h2, h3, h4, h5⟩ := hpast i hiT
    by_cases hkk : k = k0
    · subst hkk
      rcases h5 with ⟨-, hb⟩ | ⟨-, hb⟩ <;> rw [← hval, hb]
      exact hwf.hbd
    · rw [← hval, (h4 k hkk).2]
  refine ⟨?_, ?_, ?_⟩
  · intro k t1 t2 h12 h2T
    by_cases hkn : k < s.success_probs.length
    · have hklen : k < rw.length := by rw [hsh.hrl]; exact hkn
      unfold getEntry
      rw [getD_map_row rw _ k hklen]
      have hrowT : (rw.getD k []).length = T := hsh.hrow_r _ (getD_mem rw k [] hklen)
      exact cumsumFrom_mono _ (hnn_r k hkn) t1 t2 h12 (by rw [hrowT]; exact h2T)
    · have hge : (rw.map (cumsumFrom 0)).length ≤ k := by
        rw [List.length_map, hsh.hrl]
        omega
      rw [getEntry_of_length_le _ k t1 hge, getEntry_of_length_le _ k t2 hge]
  · intro k t1 t2 h12 h2T
    by_cases hkn : k < s.success_probs.length
    · have hklen : k < pn.length := by rw [hsh.hpl]; exact hkn
      unfold getEntry
      rw [getD_map_row pn _ k hklen]
      have hrowT : (pn.getD k []).length = T := hsh.hrow_p _ (getD_mem pn k [] hklen)
      exact cumsumFrom_mono _ (hnn_p k hkn) t1 t2 h12 (by rw [hrowT]; exact h2T)
    · have hge : (pn.map (cumsumFrom 0)).length ≤ k := by
        rw [List.length_map, hsh.hpl]
        omega
      rw [getEntry_of_length_le _ k t1 hge, getEntry_of_length_le _ k t2 hge]
  · intro t ht
    rw [getD_map_range T t _ ht]
    exact colSum_eq_sum_range _ _ t (by rw [List.length_map, hsh.hrl])

/-! ### Determinism of `run_experiment` in the configuration (C9) -/

/-- Forget the two fields of the run state that `run_experiment` does not
re-zero before its loop (they are recomputed after it). -/
def eraseCums (s : Thompson) : Thompson :=
  { s with cumsum_rewards := none, cumsum_penalties := none }

namespace Thompson

lemma runStep_eraseCums (rng : Rng) (s : Thompson) (c t : ℕ) :
    runStep rng (eraseCums s, c) t =
      (runStep rng (s, c) t).map (fun p => (eraseCums p.1, p.2)) := by
  cases s with
  | mk nb sp mx st ad bd ai bi op ot rwo pno cho cro cpo tro rgo =>
    unfold runStep draw_bandit
    dsimp only [eraseCums]
    have hs : sampling rng c (Thompson.mk nb sp mx st ad bd ai bi op ot rwo pno cho
        none none tro rgo) =
        sampling rng c (Thompson.mk nb sp mx st ad bd ai bi op ot rwo pno cho
        cro cpo tro rgo) := rfl
    rw [hs]
    cases hsamp : sampling rng c (Thompson.mk nb sp mx st ad bd ai bi op ot rwo pno cho
        cro cpo tro rgo) with
    | none => rfl
    | some q =>
      obtain ⟨k, c1⟩ := q
      simp only [optBind_some]
      cases cho with
      | none => rfl
      | some ch =>
        cases hbern : rng.bern c1 (sp.getD k 0) with
        | true =>
          cases rwo with
          | none => rfl
          | some rw =>
            cases rgo with
            | none => rfl
            | some rg => rfl
        | false =>
          cases pno with
          | none => rfl
          | some pn =>
            cases rgo with
            | none => rfl
            | some rg => rfl

lemma foldlM_eraseCums (rng : Rng) :
    ∀ (l : List ℕ) (s : Thompson) (c : ℕ),
      l.foldlM (runStep rng) (eraseCums s, c) =
        (l.foldlM (runStep rng) (s, c)).map (fun p => (eraseCums p.1, p.2)) := by
  intro l
  induction l with
  | nil => intro s c; rfl
  | cons a l ih =>
    intro s c
    rw [List.foldlM_cons, List.foldlM_cons, runStep_eraseCums]
    cases h : runStep rng (s, c) a with
    | none => rfl
    | some p =>
      dsimp only [Option.map_some', Option.some_bind]
      exact ih p.1 p.2

end Thompson

lemma bind_congr_of_map_erase (o1 o2 : Option (Thompson × ℕ))
    (F : Thompson × ℕ → Option (Thompson × ℕ))
    (hF : ∀ p, F (eraseCums p.1, p.2) = F p)
    (hmap : o1.map (fun p => (eraseCums p.1, p.2)) = o2.map (fun p => (eraseCums p.1, p.2))) :
    (o1 >>= F) = (o2 >>= F) := by
  cases o1 with
  | none =>
    cases o2 with
    | none => rfl
    | some p2 => simp at hmap
  | some p1 =>
    cases o2 with
    | none => simp at hmap
    | some p2 =>
      simp only [Option.map_some'] at hmap
      have hpe : ((eraseCums p1.1, p1.2) : Thompson × ℕ) = (eraseCums p2.1, p2.2) :=
        Option.some.inj hmap
      show F p1 = F p2
      rw [← hF p1, ← hF p2, hpe]

/-- C9: `run_experiment()` is a function of the configuration and the random
stream alone: two states that agree on every configuration field — however
their run-state fields differ — produce the very same result, in particular
identical `rewards`, `penalties`, `choices` and `regret` arrays.  (Each call
re-zeroes the run-state arrays before the loop, discarding prior results.) -/
theorem C9_run_deterministic (rng : Rng) (c : ℕ) (s1 s2 : Thompson)
    (h1 : s1.n_bandits = s2.n_bandits) (h2 : s1.success_probs = s2.success_probs)
    (h3 : s1.max_prob = s2.max_prob) (h4 : s1.steps = s2.steps)
    (h5 : s1.alpha_damping = s2.alpha_damping) (h6 : s1.beta_damping = s2.beta_damping)
    (h7 : s1.alpha_init = s2.alpha_init) (h8 : s1.beta_init = s2.beta_init)
    (h9 : s1.optimistic = s2.optimistic)
    (h10 : s1.optimistic_threshold = s2.optimistic_threshold) :
    Thompson.run_experiment rng c s1 = Thompson.run_experiment rng c s2 ∧
      (Thompson.run_experiment rng c s1).map
          (fun p => (p.1.rewards, p.1.penalties, p.1.choices, p.1.regret)) =
        (Thompson.run_experiment rng c s2).map
          (fun p => (p.1.rewards, p.1.penalties, p.1.choices, p.1.regret)) := by
  have hrun : Thompson.run_experiment rng c s1 = Thompson.run_experiment rng c s2 := by
    cases s1 with
    | mk nb1 sp1 mx1 st1 ad1 bd1 ai1 bi1 op1 ot1 rw1 pn1 ch1 cr1 cp1 tr1 rg1 =>
      cases s2 with
      | mk nb2 sp2 mx2 st2 ad2 bd2 ai2 bi2 op2 ot2 rw2 pn2 ch2 cr2 cp2 tr2 rg2 =>
        dsimp only at h1 h2 h3 h4 h5 h6 h7 h8 h9 h10
        subst h1
        subst h2
        subst h3
        subst h4
        subst h5
        subst h6
        subst h7
        subst h8
        subst h9
        subst h10
        unfold Thompson.run_experiment
        cases hrs : Thompson.ratSteps st1 with
        | none => rfl
        | some T =>
          simp only [optBind_some]
          apply bind_congr_of_map_erase
          · intro p
            rfl
          · rw [← Thompson.foldlM_eraseCums, ← Thompson.foldlM_eraseCums]
            rfl
  exact ⟨hrun, by rw [hrun]⟩

/-! ### Concrete instances used to witness the theorems -/

/-- A concrete random oracle: Beta draws return the posterior mean, and the
Bernoulli draw at index `i` succeeds when `i` is odd. -/
def wRng : Rng := ⟨fun _ a b => a / (a + b), fun i _ => decide (i % 2 = 1)⟩

/-- A one-bandit experiment with one step (integer-valued configuration). -/
def wState : Thompson :=
  { n_bandits := 1, success_probs := [1], max_prob := 1, steps := 1,
    alpha_damping := 1, beta_damping := 1, alpha_init := [1], beta_init := [1],
    optimistic := false, optimistic_threshold := none,
    rewards := none, penalties := none, choices := none, cumsum_rewards := none,
    cumsum_penalties := none, total_rewards := none, regret := none }

lemma wWF : WFConfig wState :=
  ⟨rfl, by decide, rfl, rfl, rfl, by decide, by decide, by decide⟩

/-- The state `run_experiment wRng 0 wState` ends in. -/
def wRunOut : Thompson :=
  { wState with
    rewards := some [[1]], penalties := some [[0]], choices := some [[1]],
    cumsum_rewards := some [[1]], cumsum_penalties := some [[0]],
    total_rewards := some [1], regret := some [0] }

lemma wRun : Thompson.run_experiment wRng 0 wState = some (wRunOut, 2) := by
  simp only [Thompson.run_experiment, Thompson.ratSteps, wState, wRng, wRunOut, zeros]
  norm_num [List.range_succ, List.foldlM, Thompson.runStep, Thompson.sampling,
    Thompson.posteriorThetas, Thompson.draw_bandit, zip4, betaDraws, idxOfMax,
    setEntry, addEntry, cumsumFrom, colSum, getEntry]

/-- `wState` with allocated (still zero) run-state arrays. -/
def wStateFull : Thompson :=
  { wState with
    rewards := some [[0]], penalties := some [[0]], choices := some [[0]],
    total_rewards := some [0], regret := some [0] }

lemma wSamp : Thompson.sampling wRng 0 wStateFull = some (0, 1) := by
  simp only [Thompson.sampling, Thompson.posteriorThetas, wStateFull, wState, wRng]
  norm_num [zip4, betaDraws, idxOfMax]

/-- An optimistic one-bandit state with allocated arrays and threshold 1. -/
def wOptState : Thompson :=
  { wState with
    optimistic := true, optimistic_threshold := some 1,
    rewards := some [[0]], penalties := some [[0]] }

lemma wOptThetas : Thompson.posteriorThetas wRng 0 wOptState = some [1] := by
  simp only [Thompson.posteriorThetas, wOptState, wState, wRng]
  norm_num [zip4, betaDraws]

/-- The object built by `init [1]` with every option omitted. -/
def wInitOut : Thompson :=
  { n_bandits := 1, success_probs := [1], max_prob := 1, steps := 1000,
    alpha_damping := 1, beta_damping := 1, alpha_init := [1], beta_init := [1],
    optimistic := false, optimistic_threshold := none,
    rewards := none, penalties := none, choices := none, cumsum_rewards := none,
    cumsum_penalties := none, total_rewards := none, regret := none }

/-- The object built by `init [1]` with `optimistic := true` provided and no
threshold. -/
def wOptInit : Thompson :=
  { wInitOut with optimistic := true, optimistic_threshold := some (1 / 1000000) }

/-- `wState` with stale run-state garbage left behind. -/
def wStale : Thompson :=
  { wState with
    rewards := some [[5]], cumsum_rewards := some [[7]], regret := some [9] }

theorem C1_witness : Thompson.sampling wRng 0 wStateFull = some (0, 1) := by
  obtain ⟨ts, hts, hlen, hent, hsamp, hklt, hmax, hfirst⟩ :=
    C1_sampling_beta_argmax wRng 0 0 wStateFull [[0]] [[0]] 1 0 rfl rfl rfl rfl rfl rfl
      (by decide) (fun h => absurd h (by decide)) (by decide) (by decide)
  rw [hsamp]
  have h0 : idxOfMax ts = 0 := by omega
  rw [h0]

lemma wcol0 : ∀ j, getEntry [[(0:ℚ)]] j 0 = 0 := by
  intro j
  cases j with
  | zero => rfl
  | succ m => exact getEntry_of_length_le _ _ _ (by simp)

theorem C2_witness : Thompson.runStep wRng (wStateFull, 0) 0 ≠ none := by
  obtain ⟨s2, hstep, -⟩ :=
    C2_step_update wRng wStateFull 0 0 [[0]] [[0]] [[0]] [0] 0 1 1 1
      wSamp rfl rfl rfl rfl (by decide) rfl rfl rfl
      (by decide) (by decide) (by decide) rfl (by decide) wcol0 wcol0
  rw [hstep]
  simp

theorem C4_witness : ∑ k in Finset.range 1, getEntry [[(1:ℚ)]] k 0 = 1 :=
  C4_one_hot_choices wRng 0 wState 1 wRunOut 2 [[1]] wWF (by norm_num [wState]) wRun rfl
    0 (by decide)

theorem C5_witness :
    0 ≤ ([(0:ℚ)]).getD 0 0 ∧
      ∀ k, getEntry [[(1:ℚ)]] k 0 = 1 →
        ([(0:ℚ)]).getD 0 0 = wState.max_prob - wState.success_probs.getD k 0 ∧
        (([(0:ℚ)]).getD 0 0 = 0 ↔ wState.success_probs.getD k 0 = wState.max_prob) :=
  C5_regret_nonneg_zero_iff wRng 0 wState 1 wRunOut 2 [[1]] [0] wWF (by norm_num [wState])
    wRun rfl rfl 0 (by decide)

theorem C6_witness :
    (∀ k t1 t2, t1 ≤ t2 → t2 < 1 → getEntry [[(1:ℚ)]] k t1 ≤ getEntry [[(1:ℚ)]] k t2) ∧
    (∀ k t1 t2, t1 ≤ t2 → t2 < 1 → getEntry [[(0:ℚ)]] k t1 ≤ getEntry [[(0:ℚ)]] k t2) ∧
    (∀ t, t < 1 → ([(1:ℚ)]).getD t 0 =
      ∑ k in Finset.range 1, getEntry [[(1:ℚ)]] k t) :=
  C6_cumsum_monotone_total wRng 0 wState 1 wRunOut 2 [[1]] [[0]] [1] wWF
    (by norm_num [wState]) wRun rfl rfl rfl

theorem C7_witness :
    (1:ℚ) ≤ 1 ∧ Thompson.sampling wRng 0 wOptState = some (0, 1) := by
  obtain ⟨hall, hsamp⟩ :=
    C7_optimistic_floor wRng 0 wOptState 1 [1] rfl rfl wOptThetas
  exact ⟨hall 1 (by simp), hsamp⟩

theorem C8_witness : wOptInit.optimistic_threshold = some (1 / 1000000) := by
  have h := C8_threshold_default [1] none none none none none (some true) wOptInit [] rfl
  exact h.1 rfl

theorem C9_witness :
    Thompson.run_experiment wRng 0 wState = Thompson.run_experiment wRng 0 wStale :=
  (C9_run_deterministic wRng 0 wState wStale rfl rfl rfl rfl rfl rfl rfl rfl rfl rfl).1

theorem C10_witness : wInitOut.rewards = none ∧ Thompson.sampling wRng 0 wInitOut = none := by
  obtain ⟨h1, h2, h3, h4, h5, h6, h7, h8⟩ :=
    C10_unrun_state [1] none none none none none none none wInitOut [] rfl
  exact ⟨h1, h8 wRng 0⟩
